import Mathlib

/- Shallow embedding of the NURBS evaluation kernel of this repository
   (src/low_level_functions.cc and src/nrbsurfderiveval.cc).

   Modelling conventions:
   * IEEE doubles are modelled as exact rationals; the algorithms only use
     field operations, so the algebraic claims are stated exactly.
   * Octave RowVector reads U(t) become list reads with default 0 for an
     out-of-range index (out-of-range access is undefined behaviour in the
     source; all claims are used with in-bounds preconditions).
   * Octave Matrix values become a structure carrying the two dimensions
     and an entry function; result matrices are built the way the C code
     builds them: allocated zero-initialised, then filled.
   * The Octave error() mechanism becomes Except.error.
   * The unbounded while loop of the findspan binary search gets an
     explicit fuel parameter; a none result means the loop has not
     terminated within the given fuel (for every fuel: divergence). -/

/-- Knot-vector access U(t): a list read with default 0 for an
out-of-range index. -/
def knot (U : List ℚ) (t : ℕ) : ℚ := U.getD t 0

/-- Dense Octave matrix: its two dimensions plus an entry function
(row, column). -/
structure Mat where
  rows : ℕ
  cols : ℕ
  entry : ℕ → ℕ → ℚ

/-- Matrix built the way the C code builds results: allocated at a fixed
size with every entry initialised to 0.0, then filled inside its bounds. -/
def mkMat (r c : ℕ) (f : ℕ → ℕ → ℚ) : Mat :=
  ⟨r, c, fun i j => if i < r ∧ j < c then f i j else 0⟩

/-- Binary-search loop of findspan (low_level_functions.cc, lines
182-194).  The C loop `while (u < U(mid) || u >= U(mid+1))` narrows
`high = mid` or `low = mid` and recomputes `mid = (low+high)/2`; the
fuel parameter stands for the unbounded iteration count. -/
def findspanLoop (U : List ℚ) (u : ℚ) : ℕ → ℕ → ℕ → Option ℕ
  | 0, _, _ => none
  | fuel+1, low, high =>
    let mid := (low + high) / 2
    if u < knot U mid ∨ knot U (mid+1) ≤ u then
      if u < knot U mid then findspanLoop U u fuel low mid
      else findspanLoop U u fuel mid high
    else some mid

/-- findspan (low_level_functions.cc, lines 176-197): the special case
u = U(n+1) returns n directly, otherwise the binary search runs on the
initial bracket low = p, high = n+1. -/
def findspanF (fuel n p : ℕ) (u : ℚ) (U : List ℚ) : Option ℕ :=
  if u = knot U (n+1) then some n
  else findspanLoop U u fuel p (n+1)

/-- Scratch value left[j] = u - U(i+1-j) of basisfun
(low_level_functions.cc, line 267); the index uses truncated natural
subtraction, in bounds under the preconditions of the claims. -/
def bfLeft (U : List ℚ) (i : ℕ) (u : ℚ) (j : ℕ) : ℚ := u - knot U (i + 1 - j)

/-- Scratch value right[j] = U(i+j) - u of basisfun
(low_level_functions.cc, line 268). -/
def bfRight (U : List ℚ) (i : ℕ) (u : ℚ) (j : ℕ) : ℚ := knot U (i + j) - u

/-- Inner loop of basisfun at triangle level j (low_level_functions.cc,
lines 271-278): runs over r = 0,1,... through the current vector N,
carrying the accumulator saved (initially 0), and finally appends
N(j) = saved. -/
def bfLoop (left rght : ℕ → ℚ) (j : ℕ) : ℕ → ℚ → List ℚ → List ℚ
  | _, saved, [] => [saved]
  | r, saved, nr :: rest =>
    let temp := nr / (rght (r+1) + left (j - r))
    (saved + rght (r+1) * temp) :: bfLoop left rght j (r+1) (left (j - r) * temp) rest

/-- Outer loop of basisfun (low_level_functions.cc, lines 264-279):
N(0) = 1, then one bfLoop pass for each level j = 1..p; the list holds
the meaningful prefix N(0..j) of the work vector. -/
def bfLevels (left rght : ℕ → ℚ) : ℕ → List ℚ
  | 0 => [1]
  | j+1 => bfLoop left rght (j+1) 0 0 (bfLevels left rght j)

/-- basisfun (low_level_functions.cc, lines 255-281): the triangular
Cox-de-Boor recurrence producing N(0..p) at knot span i. -/
def basisfun (i : ℕ) (u : ℚ) (p : ℕ) (U : List ℚ) : List ℚ :=
  bfLevels (bfLeft U i u) (bfRight U i u) p

/-- The error message of bspeval (low_level_functions.cc, line 98). -/
def errMsg : String := "inconsistent bspline data, d + columns(c) != length(k) - 1."

/-- Per-sample body of the bspeval loop (low_level_functions.cc, lines
82-94): find the span, compute the basis values, and accumulate
tmp2 += N(i)*c(row, s-d+i) for each row; none when the findspan loop
does not terminate within the fuel. -/
def bsppoint (fuel d : ℕ) (c : Mat) (k : List ℚ) (uc : ℚ) : Option (ℕ → ℚ) :=
  (findspanF fuel (c.cols - 1) d uc k).map (fun s =>
    let N := basisfun s uc d k
    fun row => (List.range (d+1)).foldl (fun tmp2 i => tmp2 + N.getD i 0 * c.entry row (s - d + i)) 0)

/-- bspeval (low_level_functions.cc, lines 58-103): the structural guard
nc + d = |k| - 1 is checked once, before any sample is processed; on
failure the whole batch is rejected with one error.  An inner none means
some sample made the findspan loop diverge (the C program would hang). -/
def bspeval (fuel d : ℕ) (c : Mat) (k : List ℚ) (u : List ℚ) : Except String (Option Mat) :=
  if (c.cols : ℤ) + (d : ℤ) = (k.length : ℤ) - 1 then
    Except.ok (if (u.map (bsppoint fuel d c k)).all Option.isSome then
      some (mkMat c.rows u.length (fun row col =>
        (bsppoint fuel d c k (u.getD col 0)).elim 0 (fun f => f row)))
    else none)
  else Except.error errMsg

/-- bspderiv (low_level_functions.cc, lines 127-159): its argument check
is commented out in the source, so it unconditionally builds
dc(j,i) = d/(k(i+d+1)-k(i+1)) * (c(j,i+1)-c(j,i)) for i = 0..nc-2 and
dk(i-1) = k(i) for i = 1..nk-2, and returns the pair. -/
def bspderiv (d : ℕ) (c : Mat) (k : List ℚ) : Except String (Mat × List ℚ) :=
  let dc : Mat := mkMat c.rows (c.cols - 1)
    (fun j i => (d : ℚ) / (knot k (i+d+1) - knot k (i+1)) * (c.entry j (i+1) - c.entry j i))
  let dk : List ℚ := (List.range (k.length - 2)).map (fun i => knot k (i+1))
  Except.ok (dc, dk)

/-- Cache-filling loop of factln (nrbsurfderiveval.cc, lines 50-54 and
low_level_functions.cc, lines 374-378): `while (n > ntop) { ++ntop;
a[ntop] = gammaln(ntop+1.0); }`.  The log-gamma function (a transcendental
Lanczos approximation on doubles) is abstracted as the parameter g; the
static array a[101] is a length-101 list, and a write outside its bounds
returns none (the out-of-bounds access of the C code). -/
def fillLoop (g : ℕ → ℚ) (n : ℕ) (ntop : ℕ) (a : List ℚ) : Option (ℕ × List ℚ) :=
  if _h : ntop < n then
    if ntop + 1 < a.length then
      fillLoop g n (ntop + 1) (a.set (ntop + 1) (g (ntop + 1 + 1)))
    else none
  else some (ntop, a)
termination_by n - ntop

/-- factln (nrbsurfderiveval.cc, lines 41-56): n <= 1 returns 0 without
touching the cache; otherwise the cache is grown up to n and a[n] is
read back.  The state is the pair (ntop, a); none models an
out-of-bounds access of the fixed 101-entry array. -/
def factln (g : ℕ → ℚ) (n : ℕ) (st : ℕ × List ℚ) : Option (ℚ × ℕ × List ℚ) :=
  if n ≤ 1 then some (0, st)
  else
    match fillLoop g n st.1 st.2 with
    | none => none
    | some (ntop, a) => if n < a.length then some (a.getD n 0, ntop, a) else none

/-- Binomial coefficient bincoeff: the source computes
floor(0.5 + exp(factln(n) - factln(k) - factln(n-k))), which is the exact
integer binomial coefficient (spec section 8); the transcendental
floating-point detour is modelled by its exact value. -/
def bincoeffQ (n k : ℕ) : ℚ := (Nat.choose n k : ℚ)

/-- Octave linear (single-subscript, column-major) indexing into a matrix
with a given number of rows, as performed by the expression `wders(i)` at
nrbsurfderiveval.cc line 137. -/
def matLin (rows : ℕ) (w : ℕ → ℕ → ℚ) (t : ℕ) : ℚ := w (t % rows) (t / rows)

/-- The (k,l) pairs visited by the unweighting loops of nrbsurfderiveval
(lines 120-123), in source order: k = 0..d outer, l = 0..d-k inner. -/
def unweightPairs (d : ℕ) : List (ℕ × ℕ) :=
  (List.range (d+1)).flatMap (fun k => (List.range (d+1-k)).map (fun l => (k, l)))

/-- Body of the unweighting loops of nrbsurfderiveval (lines 124-142) for
one (k,l) pair: v starts at Aders(k,l), is reduced by the two Leibniz
correction loops, and v / wders(0,0) is stored into skl(k,l).  Two reads
are peculiar to the source.  First, the j-loop at line 127 sets
idxta(1) = k and idxta(2) = l, so it reads the current entry skl(k,l)
itself (still zero at that moment: the NDArray is zero-initialised and
each entry is written exactly once, afterwards, at line 142) - not the
spec's skl[i][k][l-j].  Second, the inner cross term v2 accumulates
bincoeff(l,j) * wders(i), where wders(i) is the single-subscript access
of line 137 (column-major linear indexing into the (d+1) x (d+1) wders
matrix, hence wders(i,0) for i <= d).  wders is produced by
surfderiveval, which is declared in low_level_functions.h but absent
from the sources; its (d+1) x (d+1) layout is taken from the spec's
description of the derivative tensors (spec sections 4.5-4.6). -/
def unweightStep (A w : ℕ → ℕ → ℚ) (d : ℕ) (skl : ℕ → ℕ → ℚ) (kl : ℕ × ℕ) : ℕ → ℕ → ℚ :=
  let k := kl.1
  let l := kl.2
  let v1 := A k l
    - ((List.range l).map (fun j0 => bincoeffQ l (j0+1) * w 0 (j0+1) * skl k l)).sum
  let v2 := fun i => ((List.range l).map (fun j0 => bincoeffQ l (j0+1) * matLin (d+1) w i)).sum
  let v := v1 - ((List.range k).map (fun i0 =>
      bincoeffQ k (i0+1) * w (i0+1) 0 * skl (k - (i0+1)) l
        + bincoeffQ k (i0+1) * v2 (i0+1))).sum
  fun a b => if a = k ∧ b = l then v / w 0 0 else skl a b

/-- Rational unweighting recursion of nrbsurfderiveval (lines 120-144)
for one spatial dimension and one sample: the skl table starts as the
zero-initialised NDArray and is filled pair by pair in source order. -/
def unweight (A w : ℕ → ℕ → ℚ) (d : ℕ) : ℕ → ℕ → ℚ :=
  (unweightPairs d).foldl (unweightStep A w d) (fun _ _ => 0)

/-- Variant of unweightStep that follows the spec's documented formula
(spec section 4.6) instead of the source: the weight cross term is
v2 = sum over j of binom(l,j) * wders[r][j], reading the full
two-subscript entry wders(i, j). -/
def unweightSpecStep (A w : ℕ → ℕ → ℚ) (d : ℕ) (skl : ℕ → ℕ → ℚ) (kl : ℕ × ℕ) : ℕ → ℕ → ℚ :=
  let k := kl.1
  let l := kl.2
  let v1 := A k l
    - ((List.range l).map (fun j0 => bincoeffQ l (j0+1) * w 0 (j0+1) * skl k (l - (j0+1)))).sum
  let v2 := fun i => ((List.range l).map (fun j0 => bincoeffQ l (j0+1) * w i (j0+1))).sum
  let v := v1 - ((List.range k).map (fun i0 =>
      bincoeffQ k (i0+1) * w (i0+1) 0 * skl (k - (i0+1)) l
        + bincoeffQ k (i0+1) * v2 (i0+1))).sum
  fun a b => if a = k ∧ b = l then v / w 0 0 else skl a b

/-- The unweighting recursion as the spec's documented formula states
it, for comparison with the source's unweight. -/
def unweightSpec (A w : ℕ → ℕ → ℚ) (d : ℕ) : ℕ → ℕ → ℚ :=
  (unweightPairs d).foldl (unweightSpecStep A w d) (fun _ _ => 0)

/-- Numerator derivative tensor of the C1 failing input for the cross
term: identically 0. -/
def aC1 : ℕ → ℕ → ℚ := fun _ _ => 0

/-- Weight derivative tensor of the C1 failing input for the cross term:
value 1, the mixed derivative wders(1,1) equal to 5, every other entry 0
(in particular wders(0,j) = 0, so the first correction loop is inert and
any divergence is due to the v2 term alone). -/
def wC1 : ℕ → ℕ → ℚ := fun a b =>
  if a = 0 ∧ b = 0 then 1 else if a = 1 ∧ b = 1 then 5 else 0

/-- Numerator derivative tensor of the C1 failing input for the first
correction loop: Aders(0,0) = 1, every other entry 0. -/
def aC1b : ℕ → ℕ → ℚ := fun a b => if a = 0 ∧ b = 0 then 1 else 0

/-- Weight derivative tensor of the C1 failing input for the first
correction loop: wders(0,0) = wders(0,1) = 1, every other entry 0 (the
k-loop is empty at (k,l) = (0,1), so any divergence is due to the skl
read of the first correction loop alone). -/
def wC1b : ℕ → ℕ → ℚ := fun a b => if a = 0 ∧ (b = 0 ∨ b = 1) then 1 else 0

/-- Small computation helper: the range of length 1. -/
lemma listRangeOne : List.range 1 = [0] := rfl

/-- Small computation helper: the range of length 2. -/
lemma listRangeTwo : List.range 2 = [0, 1] := rfl

/-- Sum helper: a foldl accumulation of additions equals the initial
value plus the list sum, mirroring the tmp2 accumulator of bspeval. -/
lemma foldl_add_eq_sum (f : ℕ → ℚ) : ∀ (L : List ℕ) (a : ℚ),
    L.foldl (fun acc i => acc + f i) a = a + (L.map f).sum := by
  intro L
  induction L with
  | nil => intro a; simp
  | cons x xs ih => intro a; simp [ih, add_assoc]

/-- C3: bspeval raises the inconsistent-B-spline-data failure if and only
if the control-point column count nc plus the degree d differs from the
knot count minus 1; when it fails it fails once for the whole batch: the
result is the same one for every sample list and every fuel, so no
per-sample evaluation takes place. -/
theorem bspeval_error_iff_inconsistent (fuel d : ℕ) (c : Mat) (k : List ℚ) (u : List ℚ) :
    (bspeval fuel d c k u = Except.error errMsg ↔ (c.cols : ℤ) + d ≠ (k.length : ℤ) - 1)
    ∧ ((c.cols : ℤ) + d ≠ (k.length : ℤ) - 1 → bspeval fuel d c k u = bspeval 0 d c k []) := by
  constructor
  · constructor
    · intro h hc
      simp [bspeval, hc] at h
    · intro hc
      simp [bspeval, hc]
  · intro hc
    simp [bspeval, hc]

/-- Witness for C3 at a concrete inconsistent input: one control column
with degree 1 against an empty knot vector is rejected. -/
theorem bspeval_error_iff_inconsistent_witness :
    bspeval 0 1 (mkMat 1 1 (fun _ _ => 0)) [] [] = Except.error errMsg :=
  (bspeval_error_iff_inconsistent 0 1 (mkMat 1 1 (fun _ _ => 0)) [] []).1.mpr
    (by norm_num [mkMat])

/-- C10: bspderiv performs no structural validation (its argument check
is commented out): for every input, consistent or not, it returns a
dc/dk pair and never an error condition. -/
theorem bspderiv_never_errors (d : ℕ) (c : Mat) (k : List ℚ) :
    (∀ e, bspderiv d c k ≠ Except.error e) ∧ ∃ pr, bspderiv d c k = Except.ok pr :=
  ⟨fun e h => by simp [bspderiv] at h, ⟨_, rfl⟩⟩

/-- C5: bspderiv returns the mc x (nc-1) derivative control points, with
column i equal to d/(k(i+d+1)-k(i+1)) times the difference of adjacent
control columns, and a derivative knot vector of length nk-2 equal to the
original knots with the first and last knot dropped. -/
theorem bspderiv_formula (d : ℕ) (c : Mat) (k : List ℚ)
    (hdist : ∀ i, i < c.cols - 1 → knot k (i+d+1) ≠ knot k (i+1)) :
    ∃ dc dk, bspderiv d c k = Except.ok (dc, dk) ∧
      dc.rows = c.rows ∧ dc.cols = c.cols - 1 ∧
      (∀ j i, j < c.rows → i < c.cols - 1 →
        dc.entry j i
          = (d : ℚ) / (knot k (i+d+1) - knot k (i+1)) * (c.entry j (i+1) - c.entry j i)) ∧
      dk.length = k.length - 2 ∧ dk = (k.drop 1).dropLast := by
  refine ⟨_, _, rfl, rfl, rfl, ?_, ?_, ?_⟩
  · intro j i hj hi
    simp [mkMat, hj, hi]
  · simp
  · apply List.ext_getElem
    · simp
      omega
    · intro i h1 h2
      simp [knot, List.getD_eq_getElem?_getD, List.length_range] at h1 ⊢
      rw [List.getElem?_eq_getElem (by omega)]
      simp

/-- Witness for C5 at a concrete input: degree 1, one row of two control
points, clamped knot vector [0,0,1,1]. -/
theorem bspderiv_formula_witness :
    ∃ dc dk, bspderiv 1 (mkMat 1 2 (fun _ j => (j : ℚ))) [0, 0, 1, 1] = Except.ok (dc, dk) ∧
      dc.rows = (mkMat 1 2 (fun _ j => (j : ℚ))).rows ∧
      dc.cols = (mkMat 1 2 (fun _ j => (j : ℚ))).cols - 1 ∧
      (∀ j i, j < (mkMat 1 2 (fun _ j => (j : ℚ))).rows →
        i < (mkMat 1 2 (fun _ j => (j : ℚ))).cols - 1 →
        dc.entry j i = (1 : ℚ) / (knot [0, 0, 1, 1] (i+1+1) - knot [0, 0, 1, 1] (i+1))
          * ((mkMat 1 2 (fun _ j => (j : ℚ))).entry j (i+1)
              - (mkMat 1 2 (fun _ j => (j : ℚ))).entry j i)) ∧
      dk.length = ([0, 0, 1, 1] : List ℚ).length - 2 ∧
      dk = (([0, 0, 1, 1] : List ℚ).drop 1).dropLast :=
  bspderiv_formula 1 (mkMat 1 2 (fun _ j => (j : ℚ))) [0, 0, 1, 1]
    (by
      intro i hi
      have h2 : i < 1 := hi
      interval_cases i
      norm_num [mkMat, knot])

/-- C1: the source's Leibniz correction deviates from the spec's
documented formula in two places.  First, the j-loop at
nrbsurfderiveval.cc line 127 sets idxta(2) = l and so reads the
still-zero current entry skl(k,l) instead of the spec's skl[i][k][l-j]:
at d = 1, pair (0,1), Aders(0,0) = 1, wders(0,0) = wders(0,1) = 1, the
source stores skl(0,1) = 0 while the documented formula yields -1.
Second, the inner weight cross term at line 137 reads wders with a
single subscript, wders(i), the column-major linear entry wders(i,0),
not the wders(i,j) of the spec's documented formula: at d = 2, pair
(1,1), Aders identically 0, wders(0,0) = 1, wders(1,1) = 5 (an input on
which the first loop is inert since wders(0,j) = 0 for j >= 1), the
source stores skl(1,1) = 0 while the documented formula yields -5. -/
theorem unweight_deviates_from_spec_formula :
    (unweight aC1b wC1b 1 0 1 = 0 ∧ unweightSpec aC1b wC1b 1 0 1 = -1 ∧
      unweight aC1b wC1b 1 0 1 ≠ unweightSpec aC1b wC1b 1 0 1) ∧
    (unweight aC1 wC1 2 1 1 = 0 ∧ unweightSpec aC1 wC1 2 1 1 = -5 ∧
      unweight aC1 wC1 2 1 1 ≠ unweightSpec aC1 wC1 2 1 1) := by
  have hb1 : unweight aC1b wC1b 1 0 1 = 0 := by
    norm_num [unweight, unweightPairs, unweightStep, aC1b, wC1b, bincoeffQ, matLin,
      List.flatMap, List.range_succ, listRangeOne, listRangeTwo]
  have hb2 : unweightSpec aC1b wC1b 1 0 1 = -1 := by
    norm_num [unweightSpec, unweightPairs, unweightSpecStep, aC1b, wC1b, bincoeffQ,
      List.flatMap, List.range_succ, listRangeOne, listRangeTwo]
  have h1 : unweight aC1 wC1 2 1 1 = 0 := by
    norm_num [unweight, unweightPairs, unweightStep, aC1, wC1, bincoeffQ, matLin,
      List.flatMap, List.range_succ, listRangeOne, listRangeTwo]
  have h2 : unweightSpec aC1 wC1 2 1 1 = -5 := by
    norm_num [unweightSpec, unweightPairs, unweightSpecStep, aC1, wC1, bincoeffQ,
      List.flatMap, List.range_succ, listRangeOne, listRangeTwo]
  refine ⟨⟨hb1, hb2, ?_⟩, ⟨h1, h2, ?_⟩⟩
  · rw [hb1, hb2]
    norm_num
  · rw [h1, h2]
    norm_num

/-- The cache-filling loop succeeds when the requested n fits the
101-entry array: the watermark ntop only grows (staying at most 100),
the array length is unchanged, and every entry at or below the old
watermark keeps its value (writes only touch indices above it). -/
lemma fillLoop_spec (g : ℕ → ℚ) (n ntop : ℕ) (a : List ℚ)
    (hlen : a.length = 101) (hntop : ntop ≤ 100) (hn : n ≤ 100) :
    ∃ ntop2 a2, fillLoop g n ntop a = some (ntop2, a2) ∧ ntop ≤ ntop2 ∧ ntop2 ≤ 100 ∧
      a2.length = 101 ∧ ∀ i, i ≤ ntop → a2.getD i 0 = a.getD i 0 := by
  rw [fillLoop]
  split
  · rename_i h
    have hlt : ntop + 1 < a.length := by omega
    rw [if_pos hlt]
    obtain ⟨n2, a2, heq, h1, h2, h3, h4⟩ :=
      fillLoop_spec g n (ntop+1) (a.set (ntop+1) (g (ntop+1+1))) (by simp [hlen]) (by omega) hn
    refine ⟨n2, a2, heq, by omega, h2, h3, fun i hi => ?_⟩
    rw [h4 i (by omega), List.getD_eq_getElem?_getD, List.getD_eq_getElem?_getD,
      List.getElem?_set_ne (by omega)]
  · exact ⟨ntop, a, rfl, le_refl _, hntop, hlen, fun i _ => rfl⟩
termination_by n - ntop

/-- With n = 101 the cache-filling loop runs off the end of the
101-entry array: the write a[101] is out of bounds. -/
lemma fillLoop_overflow (g : ℕ → ℚ) (ntop : ℕ) (a : List ℚ)
    (hlen : a.length = 101) (hntop : ntop ≤ 100) :
    fillLoop g 101 ntop a = none := by
  rw [fillLoop, dif_pos (by omega : ntop < 101)]
  by_cases hc : ntop + 1 < a.length
  · rw [if_pos hc]
    exact fillLoop_overflow g (ntop+1) _ (by simp [hlen]) (by omega)
  · rw [if_neg hc]
termination_by 101 - ntop

/-- factln propagates an out-of-bounds cache fill. -/
lemma factln_none (g : ℕ → ℚ) (n : ℕ) (st : ℕ × List ℚ) (h2 : ¬ n ≤ 1)
    (h : fillLoop g n st.1 st.2 = none) : factln g n st = none := by
  rw [factln, if_neg h2, h]

/-- C9: the factln memo cache is a fixed 101-entry array with no bound
check.  For every call with n <= 100 (and the invariant watermark
ntop <= 100) every cache access is in bounds and the call succeeds; the
watermark grows monotonically and entries at or below it are never
overwritten; and the precondition is required: the call with n = 101 on
the freshly zeroed cache reaches the out-of-bounds write. -/
theorem factln_cache_safety (g : ℕ → ℚ) (n ntop : ℕ) (a : List ℚ)
    (hlen : a.length = 101) (hntop : ntop ≤ 100) (hn : n ≤ 100) :
    (∃ r ntop2 a2, factln g n (ntop, a) = some (r, ntop2, a2) ∧ ntop ≤ ntop2 ∧ ntop2 ≤ 100 ∧
      a2.length = 101 ∧ ∀ i, i ≤ ntop → a2.getD i 0 = a.getD i 0)
    ∧ factln g 101 (0, List.replicate 101 0) = none := by
  constructor
  · by_cases h1 : n ≤ 1
    · exact ⟨0, ntop, a, by simp [factln, h1], le_refl _, hntop, hlen, fun i _ => rfl⟩
    · obtain ⟨n2, a2, heq, hm, h100, hl, hpres⟩ := fillLoop_spec g n ntop a hlen hntop hn
      refine ⟨a2.getD n 0, n2, a2, ?_, hm, h100, hl, hpres⟩
      have hstep : factln g n (ntop, a)
          = if n < a2.length then some (a2.getD n 0, n2, a2) else none := by
        simp [factln, h1, heq]
      rw [hstep, if_pos (by omega)]
  · exact factln_none g 101 (0, List.replicate 101 0) (by omega)
      (fillLoop_overflow g 0 (List.replicate 101 0) (by simp) (by omega))

/-- Witness for C9: a concrete call with n = 5 on the fresh cache,
together with the concrete out-of-bounds call with n = 101. -/
theorem factln_cache_safety_witness :
    (∃ r ntop2 a2, factln (fun _ => 0) 5 (0, List.replicate 101 0) = some (r, ntop2, a2) ∧
      0 ≤ ntop2 ∧ ntop2 ≤ 100 ∧ a2.length = 101 ∧
      ∀ i, i ≤ 0 → a2.getD i 0 = (List.replicate 101 (0:ℚ)).getD i 0)
    ∧ factln (fun _ => 0) 101 (0, List.replicate 101 0) = none :=
  factln_cache_safety (fun _ => 0) 5 0 (List.replicate 101 0) (by simp) (by omega) (by omega)

/-- A fold of unweighting steps leaves a table entry untouched when its
pair is not among the processed pairs. -/
lemma unweight_foldl_not_mem (A w : ℕ → ℕ → ℚ) (d : ℕ) :
    ∀ (L : List (ℕ × ℕ)) (t : ℕ → ℕ → ℚ) (k l : ℕ), (k, l) ∉ L →
      L.foldl (unweightStep A w d) t k l = t k l := by
  intro L
  induction L with
  | nil =>
    intro t k l _
    rfl
  | cons p rest ih =>
    intro t k l hmem
    rw [List.foldl_cons, ih _ _ _ (fun hc => hmem (List.mem_cons_of_mem _ hc))]
    have hne : ¬(k = p.1 ∧ l = p.2) := by
      rintro ⟨rfl, rfl⟩
      exact hmem (by simp)
    simp [unweightStep, hne]

/-- Under a unit weight field (value 1, every derivative 0) one
unweighting step writes exactly Aders(k,l) into slot (k,l), whatever the
current table holds: every correction term carries a zero weight
factor. -/
lemma unweightStep_id (A w : ℕ → ℕ → ℚ) (d : ℕ) (t : ℕ → ℕ → ℚ) (k l : ℕ)
    (hw0 : w 0 0 = 1) (hw : ∀ a b, 1 ≤ a + b → w a b = 0) (hk : k ≤ d) :
    unweightStep A w d t (k, l) k l = A k l := by
  have hz1 : ((List.range l).map
      (fun j0 => bincoeffQ l (j0+1) * w 0 (j0+1) * t k l)).sum = 0 := by
    apply List.sum_eq_zero
    intro x hx
    simp only [List.mem_map, List.mem_range] at hx
    obtain ⟨j0, _, rfl⟩ := hx
    rw [hw 0 (j0+1) (by omega)]
    ring
  have hz2 : ((List.range k).map (fun i0 =>
      bincoeffQ k (i0+1) * w (i0+1) 0 * t (k - (i0+1)) l
        + bincoeffQ k (i0+1)
            * ((List.range l).map (fun j0 => bincoeffQ l (j0+1) * matLin (d+1) w (i0+1))).sum)).sum
      = 0 := by
    apply List.sum_eq_zero
    intro x hx
    simp only [List.mem_map, List.mem_range] at hx
    obtain ⟨i0, hi0, rfl⟩ := hx
    have hlin : matLin (d+1) w (i0+1) = 0 := by
      rw [matLin, Nat.mod_eq_of_lt (by omega), Nat.div_eq_of_lt (by omega)]
      exact hw (i0+1) 0 (by omega)
    rw [hw (i0+1) 0 (by omega), hlin]
    simp
  simp only [unweightStep]
  rw [if_pos (by trivial), hz1, hz2, hw0]
  ring

/-- The pair (k,l) is visited by the unweighting loops exactly when its
total order is at most d. -/
lemma mem_unweightPairs (d k l : ℕ) : (k, l) ∈ unweightPairs d ↔ k + l ≤ d := by
  simp only [unweightPairs, List.mem_flatMap, List.mem_map, List.mem_range, Prod.mk.injEq]
  constructor
  · rintro ⟨k2, hk2, l2, hl2, rfl, rfl⟩
    omega
  · intro h
    exact ⟨k, by omega, l, by omega, rfl, rfl⟩

/-- A fold of unweighting steps over a unit weight field stores
Aders(k,l) at every processed pair (k,l) with k at most d. -/
lemma unweight_foldl_mem (A w : ℕ → ℕ → ℚ) (d : ℕ)
    (hw0 : w 0 0 = 1) (hw : ∀ a b, 1 ≤ a + b → w a b = 0) :
    ∀ (L : List (ℕ × ℕ)) (t : ℕ → ℕ → ℚ) (k l : ℕ), k ≤ d → (k, l) ∈ L →
      L.foldl (unweightStep A w d) t k l = A k l := by
  intro L
  induction L with
  | nil =>
    intro t k l _ hmem
    exact absurd hmem (List.not_mem_nil _)
  | cons p rest ih =>
    intro t k l hk hmem
    rw [List.foldl_cons]
    by_cases hr : (k, l) ∈ rest
    · exact ih _ _ _ hk hr
    · have hp : p = (k, l) := by
        rcases List.mem_cons.mp hmem with h | h
        · exact h.symm
        · exact absurd h hr
      subst hp
      rw [unweight_foldl_not_mem A w d rest _ k l hr]
      exact unweightStep_id A w d t k l hw0 hw hk

/-- C6: for a surface whose weight field is uniformly 1 (wders(0,0) = 1
and every higher-order weight derivative 0), the rational unweighting
step of nrbsurfderiveval is an identity pass-through: skl(k,l) equals
Aders(k,l) for every pair of total order at most d, for each spatial
dimension (the tensor A of that dimension is arbitrary here). -/
theorem unweight_identity_on_unit_weights (A w : ℕ → ℕ → ℚ) (d k l : ℕ)
    (hw0 : w 0 0 = 1) (hw : ∀ a b, 1 ≤ a + b → w a b = 0) (hkl : k + l ≤ d) :
    unweight A w d k l = A k l :=
  unweight_foldl_mem A w d hw0 hw (unweightPairs d) _ k l (by omega)
    ((mem_unweightPairs d k l).mpr hkl)

/-- Arbitrary numerator tensor for the C6 witness. -/
def aC6 : ℕ → ℕ → ℚ := fun a b => (a : ℚ) + 2 * b + 1

/-- Unit weight tensor for the C6 witness: derivatives of the constant
weight field 1. -/
def wC6 : ℕ → ℕ → ℚ := fun a b => if a = 0 ∧ b = 0 then 1 else 0

/-- Witness for C6 at a concrete input: order d = 2, pair (1,1). -/
theorem unweight_identity_on_unit_weights_witness :
    unweight aC6 wC6 2 1 1 = aC6 1 1 :=
  unweight_identity_on_unit_weights aC6 wC6 2 1 1 (by norm_num [wC6])
    (by
      intro a b hab
      have hne : ¬(a = 0 ∧ b = 0) := by
        rintro ⟨rfl, rfl⟩
        omega
      simp [wC6, hne])
    (by omega)

/-- Reads of a non-decreasing list through knot are monotone on
in-bounds indices. -/
lemma getD_mono_of_pairwise (U : List ℚ) (h : List.Pairwise (fun a b => a ≤ b) U)
    (a b : ℕ) (hab : a ≤ b) (hb : b < U.length) : knot U a ≤ knot U b := by
  rcases Nat.eq_or_lt_of_le hab with rfl | hlt
  · exact le_refl _
  · have ha : a < U.length := lt_trans hlt hb
    rw [knot, knot, List.getD_eq_getElem?_getD, List.getD_eq_getElem?_getD,
      List.getElem?_eq_getElem ha, List.getElem?_eq_getElem hb]
    simpa using List.pairwise_iff_get.mp h ⟨a, ha⟩ ⟨b, hb⟩ hlt

/-- Correctness and termination of the findspan binary search: from a
bracket low < high with U(low) <= u < U(high) and fuel at least
high - low, the loop returns a mid with U(mid) <= u < U(mid+1).
No sortedness is needed: the bracket inequalities are maintained
directly and the exit condition is exactly the conclusion. -/
lemma findspanLoop_correct (U : List ℚ) (u : ℚ) :
    ∀ (fuel low high : ℕ), low < high → knot U low ≤ u → u < knot U high →
      high - low ≤ fuel →
      ∃ mid, findspanLoop U u fuel low high = some mid ∧
        knot U mid ≤ u ∧ u < knot U (mid+1) := by
  intro fuel
  induction fuel with
  | zero =>
    intro low high h1 _ _ h4
    omega
  | succ f ih =>
    intro low high h1 h2 h3 h4
    rw [findspanLoop]
    set mid := (low + high) / 2 with hmid
    by_cases hcond : u < knot U mid ∨ knot U (mid+1) ≤ u
    · rw [if_pos hcond]
      have hmh : mid < high := by omega
      by_cases hlt : u < knot U mid
      · rw [if_pos hlt]
        have hlm : low < mid := by
          have hml : low ≤ mid := by omega
          rcases Nat.eq_or_lt_of_le hml with heq | h
          · rw [← heq] at hlt
            exact absurd h2 (not_le.mpr hlt)
          · exact h
        exact ih low mid hlm h2 hlt (by omega)
      · rw [if_neg hlt]
        have hge : knot U (mid+1) ≤ u := hcond.resolve_left hlt
        have hlm : low < mid := by
          by_contra hc
          have hmeq : mid + 1 = high := by omega
          rw [hmeq] at hge
          exact absurd h3 (not_lt.mpr hge)
        exact ih mid high hmh (le_of_not_lt hlt) h3 (by omega)
    · rw [if_neg hcond]
      push_neg at hcond
      exact ⟨mid, rfl, hcond.1, hcond.2⟩

/-- C8: for every non-decreasing knot vector, repeated interior knots
included, and every u with U(p) <= u < U(n+1), the findspan binary
search terminates; n+1 units of fuel already suffice. -/
theorem findspan_terminates (n p : ℕ) (u : ℚ) (U : List ℚ)
    (hsort : List.Pairwise (fun a b => a ≤ b) U) (hbound : n + 1 < U.length)
    (hp : p < U.length) (hlo : knot U p ≤ u) (hhi : u < knot U (n+1)) :
    (findspanF (n+1) n p u U).isSome = true := by
  have hne : u ≠ knot U (n+1) := ne_of_lt hhi
  have hpn : p < n + 1 := by
    by_contra hc
    push_neg at hc
    have hmono := getD_mono_of_pairwise U hsort (n+1) p hc hp
    exact absurd hhi (not_lt.mpr (le_trans hmono hlo))
  obtain ⟨mid, hm, _, _⟩ := findspanLoop_correct U u (n+1) p (n+1) hpn hlo hhi (by omega)
  rw [findspanF, if_neg hne, hm]
  rfl

/-- C2 (amended): for every valid input with U non-decreasing and
U(p) <= u <= U(n+1), findspan returns a span s with U(s) <= u < U(s+1),
and returns n in the boundary case u = U(n+1). -/
theorem findspan_correct (n p : ℕ) (u : ℚ) (U : List ℚ)
    (hsort : List.Pairwise (fun a b => a ≤ b) U) (hbound : n + 1 < U.length)
    (hp : p < U.length) (hlo : knot U p ≤ u) (hhi : u ≤ knot U (n+1)) :
    ∃ s, findspanF (n+1) n p u U = some s ∧
      (u = knot U (n+1) → s = n) ∧
      (u ≠ knot U (n+1) → knot U s ≤ u ∧ u < knot U (s+1)) := by
  by_cases heq : u = knot U (n+1)
  · exact ⟨n, by rw [findspanF, if_pos heq], fun _ => rfl, fun hne => absurd heq hne⟩
  · have hhi2 : u < knot U (n+1) := lt_of_le_of_ne hhi heq
    have hpn : p < n + 1 := by
      by_contra hc
      push_neg at hc
      have hmono := getD_mono_of_pairwise U hsort (n+1) p hc hp
      exact absurd hhi2 (not_lt.mpr (le_trans hmono hlo))
    obtain ⟨mid, hm, hml, hmr⟩ := findspanLoop_correct U u (n+1) p (n+1) hpn hlo hhi2 (by omega)
    exact ⟨mid, by rw [findspanF, if_neg heq, hm], fun hc => absurd hc heq, fun _ => ⟨hml, hmr⟩⟩

/-- Clamped knot vector of the repository's own findspan test. -/
def uKnots : List ℚ := [0, 0, 0, 1/2, 1, 1, 1]

/-- Witness for C2 at a concrete input: n = 3, p = 2, u = 1/4 on the
clamped knot vector. -/
theorem findspan_correct_witness :
    ∃ s, findspanF 4 3 2 (1/4 : ℚ) uKnots = some s ∧
      ((1/4 : ℚ) = knot uKnots 4 → s = 3) ∧
      ((1/4 : ℚ) ≠ knot uKnots 4 → knot uKnots s ≤ 1/4 ∧ (1/4 : ℚ) < knot uKnots (s+1)) :=
  findspan_correct 3 2 (1/4) uKnots (by norm_num [uKnots, List.pairwise_cons])
    (by norm_num [uKnots]) (by norm_num [uKnots]) (by norm_num [uKnots, knot])
    (by norm_num [uKnots, knot])

/-- Knot vector with a doubled interior knot for the C8 witness. -/
def uKnotsRep : List ℚ := [0, 0, 0, 1/2, 1/2, 1, 1, 1]

/-- Witness for C8 at a concrete input with a repeated interior knot:
n = 4, p = 2, u = 1/2 sits exactly on the doubled knot. -/
theorem findspan_terminates_witness :
    (findspanF 5 4 2 (1/2 : ℚ) uKnotsRep).isSome = true :=
  findspan_terminates 4 2 (1/2) uKnotsRep (by norm_num [uKnotsRep, List.pairwise_cons])
    (by norm_num [uKnotsRep]) (by norm_num [uKnotsRep]) (by norm_num [uKnotsRep, knot])
    (by norm_num [uKnotsRep, knot])

/-- Unclamped strictly increasing knot vector of the C2 counterexample. -/
def uC2 : List ℚ := [0, 1, 2, 3, 4, 5, 6]

/-- The findspan loop is stuck on the bracket low = high = 2 for
u = 1/2 on the unclamped knot vector: the state repeats forever. -/
lemma findspanLoop_stuck : ∀ f, findspanLoop uC2 (1/2 : ℚ) f 2 2 = none := by
  intro f
  induction f with
  | zero => rfl
  | succ f2 ih =>
    have h2 : knot uC2 2 = 2 := by norm_num [uC2, knot]
    have h3 : knot uC2 3 = 3 := by norm_num [uC2, knot]
    simp only [findspanLoop, h2, h3]
    norm_num
    exact ih

/-- From the bracket (2,3) the loop for u = 1/2 moves to the stuck
bracket (2,2). -/
lemma findspanLoop_desc23 : ∀ f, findspanLoop uC2 (1/2 : ℚ) f 2 3 = none := by
  intro f
  match f with
  | 0 => rfl
  | f2+1 =>
    have h2 : knot uC2 2 = 2 := by norm_num [uC2, knot]
    have h3 : knot uC2 3 = 3 := by norm_num [uC2, knot]
    simp only [findspanLoop, h2, h3]
    norm_num
    exact findspanLoop_stuck f2

/-- From the initial bracket (2,4) the loop for u = 1/2 moves to the
bracket (2,3) and then gets stuck. -/
lemma findspanLoop_desc24 : ∀ f, findspanLoop uC2 (1/2 : ℚ) f 2 4 = none := by
  intro f
  match f with
  | 0 => rfl
  | f2+1 =>
    have h3 : knot uC2 3 = 3 := by norm_num [uC2, knot]
    have h4 : knot uC2 4 = 4 := by norm_num [uC2, knot]
    simp only [findspanLoop, h3, h4]
    norm_num
    exact findspanLoop_desc23 f2

/-- C2 counterexample: the input n = 3, p = 2, u = 1/2 on the unclamped
non-decreasing knot vector [0,1,2,3,4,5,6] satisfies the claim's
hypotheses (U non-decreasing and U(0) <= u <= U(n+1)), yet the binary
search loops forever: for every fuel findspan returns nothing, so no
span index U(s) <= u < U(s+1) is ever produced. -/
theorem findspan_claim_counterexample :
    List.Pairwise (fun a b => a ≤ b) uC2 ∧ knot uC2 0 ≤ (1/2 : ℚ) ∧
      (1/2 : ℚ) ≤ knot uC2 4 ∧ ∀ fuel, findspanF fuel 3 2 (1/2) uC2 = none := by
  refine ⟨by norm_num [uC2, List.pairwise_cons], by norm_num [uC2, knot],
    by norm_num [uC2, knot], ?_⟩
  intro fuel
  have hne : (1/2 : ℚ) ≠ knot uC2 4 := by norm_num [uC2, knot]
  rw [findspanF, if_neg hne]
  exact findspanLoop_desc24 fuel

/-- The basisfun inner loop produces one more entry than its input. -/
lemma bfLoop_length (left rght : ℕ → ℚ) (j : ℕ) :
    ∀ (N : List ℚ) (r : ℕ) (saved : ℚ), (bfLoop left rght j r saved N).length = N.length + 1 := by
  intro N
  induction N with
  | nil =>
    intro r saved
    rfl
  | cons nr rest ih =>
    intro r saved
    simp [bfLoop, ih]

/-- The basisfun inner loop preserves total mass: when no convex
denominator vanishes, the output sums to saved plus the input sum. -/
lemma bfLoop_sum (left rght : ℕ → ℚ) (j : ℕ) :
    ∀ (N : List ℚ) (r : ℕ) (saved : ℚ),
      (∀ m, m < N.length → rght (r+m+1) + left (j - (r+m)) ≠ 0) →
      (bfLoop left rght j r saved N).sum = saved + N.sum := by
  intro N
  induction N with
  | nil =>
    intro r saved _
    simp [bfLoop]
  | cons nr rest ih =>
    intro r saved hden
    have hd0 : rght (r+1) + left (j - r) ≠ 0 := by
      have h := hden 0 (by simp)
      simpa using h
    simp only [bfLoop, List.sum_cons]
    rw [ih (r+1) _ (fun m hm => by
      have e1 : r + 1 + m + 1 = r + (m+1) + 1 := by omega
      have e2 : r + 1 + m = r + (m+1) := by omega
      rw [e1, e2]
      exact hden (m+1) (by simp only [List.length_cons]; omega))]
    field_simp
    ring

/-- The basisfun inner loop keeps every entry nonnegative when the
scratch values are nonnegative and the denominators positive. -/
lemma bfLoop_nonneg (left rght : ℕ → ℚ) (j : ℕ) :
    ∀ (N : List ℚ) (r : ℕ) (saved : ℚ), 0 ≤ saved → (∀ x ∈ N, 0 ≤ x) →
      (∀ m, m < N.length → 0 < rght (r+m+1) + left (j - (r+m)) ∧
        0 ≤ rght (r+m+1) ∧ 0 ≤ left (j - (r+m))) →
      ∀ x ∈ bfLoop left rght j r saved N, 0 ≤ x := by
  intro N
  induction N with
  | nil =>
    intro r saved hs _ _ x hx
    simp only [bfLoop, List.mem_singleton] at hx
    rwa [hx]
  | cons nr rest ih =>
    intro r saved hs hN hcond x hx
    have h0 := hcond 0 (by simp)
    have h0p : 0 < rght (r+1) + left (j - r) := by simpa using h0.1
    have h0r : 0 ≤ rght (r+1) := by simpa using h0.2.1
    have h0l : 0 ≤ left (j - r) := by simpa using h0.2.2
    have htemp : 0 ≤ nr / (rght (r+1) + left (j - r)) :=
      div_nonneg (hN nr (by simp)) (le_of_lt h0p)
    simp only [bfLoop, List.mem_cons] at hx
    rcases hx with rfl | hx
    · exact add_nonneg hs (mul_nonneg h0r htemp)
    · refine ih (r+1) _ (mul_nonneg h0l htemp)
        (fun y hy => hN y (List.mem_cons_of_mem _ hy)) (fun m hm => ?_) x hx
      have e1 : r + 1 + m + 1 = r + (m+1) + 1 := by omega
      have e2 : r + 1 + m = r + (m+1) := by omega
      rw [e1, e2]
      exact hcond (m+1) (by simp only [List.length_cons]; omega)

/-- Invariant of the basisfun triangle on a valid nonempty span
U(i) <= u < U(i+1): at every level j <= p the vector has j+1 entries,
all nonnegative, summing to 1. -/
lemma bfLevels_inv (U : List ℚ) (i p : ℕ) (u : ℚ)
    (hsort : List.Pairwise (fun a b => a ≤ b) U) (hpi : p ≤ i) (hlen : i + p < U.length)
    (hlo : knot U i ≤ u) (hhi : u < knot U (i+1)) :
    ∀ j, j ≤ p → (bfLevels (bfLeft U i u) (bfRight U i u) j).length = j + 1 ∧
      (∀ x ∈ bfLevels (bfLeft U i u) (bfRight U i u) j, 0 ≤ x) ∧
      (bfLevels (bfLeft U i u) (bfRight U i u) j).sum = 1 := by
  intro j
  induction j with
  | zero =>
    intro _
    refine ⟨rfl, ?_, by norm_num [bfLevels]⟩
    intro x hx
    simp only [bfLevels, List.mem_singleton] at hx
    rw [hx]
    norm_num
  | succ j2 ih =>
    intro hj
    obtain ⟨hl, hnn, hsum⟩ := ih (by omega)
    have hfacts : ∀ m, m < j2 + 1 →
        0 < bfRight U i u (m+1) + bfLeft U i u ((j2+1) - m) ∧
        0 ≤ bfRight U i u (m+1) ∧ 0 ≤ bfLeft U i u ((j2+1) - m) := by
      intro m hm
      have hA : knot U (i+1) ≤ knot U (i + (m+1)) :=
        getD_mono_of_pairwise U hsort (i+1) (i+(m+1)) (by omega) (by omega)
      have hB : knot U (i + 1 - ((j2+1) - m)) ≤ knot U i :=
        getD_mono_of_pairwise U hsort _ i (by omega) (by omega)
      rw [bfRight, bfLeft]
      refine ⟨by linarith, by linarith, by linarith⟩
    refine ⟨?_, ?_, ?_⟩
    · rw [bfLevels, bfLoop_length, hl]
    · rw [bfLevels]
      refine bfLoop_nonneg _ _ _ _ 0 0 (le_refl 0) hnn (fun m hm => ?_)
      have e1 : 0 + m + 1 = m + 1 := by omega
      have e2 : 0 + m = m := by omega
      rw [e1, e2]
      exact hfacts m (by omega)
    · rw [bfLevels, bfLoop_sum _ _ _ _ 0 0 (fun m hm => ?_), hsum, zero_add]
      have e1 : 0 + m + 1 = m + 1 := by omega
      have e2 : 0 + m = m := by omega
      rw [e1, e2]
      exact ne_of_gt (hfacts m (by omega)).1

/-- C7: on a valid span (p <= i, the knot window in bounds, U
non-decreasing, and U(i) <= u < U(i+1), so the span is nondegenerate and
no convex denominator vanishes), basisfun returns exactly p+1 entries,
each nonnegative, summing exactly to 1. -/
theorem basisfun_partition_of_unity (p i : ℕ) (u : ℚ) (U : List ℚ)
    (hsort : List.Pairwise (fun a b => a ≤ b) U) (hpi : p ≤ i) (hlen : i + p < U.length)
    (hlo : knot U i ≤ u) (hhi : u < knot U (i+1)) :
    (basisfun i u p U).length = p + 1 ∧ (∀ x ∈ basisfun i u p U, 0 ≤ x) ∧
      (basisfun i u p U).sum = 1 :=
  bfLevels_inv U i p u hsort hpi hlen hlo hhi p (le_refl p)

/-- Witness for C7 at a concrete input: degree 2, span 2, u = 1/4 on the
clamped knot vector of the repository's own test. -/
theorem basisfun_partition_of_unity_witness :
    (basisfun 2 (1/4 : ℚ) 2 uKnots).length = 2 + 1 ∧
      (∀ x ∈ basisfun 2 (1/4 : ℚ) 2 uKnots, 0 ≤ x) ∧
      (basisfun 2 (1/4 : ℚ) 2 uKnots).sum = 1 :=
  basisfun_partition_of_unity 2 2 (1/4) uKnots (by norm_num [uKnots, List.pairwise_cons])
    (le_refl 2) (by norm_num [uKnots]) (by norm_num [uKnots, knot])
    (by norm_num [uKnots, knot])

/-- A default-valued list read agrees with the total read inside the
bounds. -/
lemma getD_eq_get_of_lt (L : List ℚ) (n : ℕ) (h : n < L.length) :
    L.getD n 0 = L.get ⟨n, h⟩ := by
  rw [List.getD_eq_getElem?_getD, List.getElem?_eq_getElem h]
  simp

/-- C4: for every consistent input (nc + d = |k| - 1) whose samples all
lie in the domain (every per-sample findspan succeeds), bspeval returns
the matrix whose entry at (row, col) is the weighted sum over i of
N(i) * c(row, s - d + i), where s is the span of sample col and N the
basis vector basisfun(s, u, d, k) at that sample. -/
theorem bspeval_point_formula (fuel d : ℕ) (c : Mat) (k u : List ℚ)
    (hcons : (c.cols : ℤ) + (d : ℤ) = (k.length : ℤ) - 1)
    (hall : ∀ j, j < u.length → (bsppoint fuel d c k (u.getD j 0)).isSome = true)
    (col : ℕ) (hcol : col < u.length) (s : ℕ)
    (hspan : findspanF fuel (c.cols - 1) d (u.getD col 0) k = some s)
    (row : ℕ) (hrow : row < c.rows) :
    ∃ P, bspeval fuel d c k u = Except.ok (some P) ∧
      P.entry row col = ((List.range (d+1)).map
        (fun i => (basisfun s (u.getD col 0) d k).getD i 0 * c.entry row (s - d + i))).sum := by
  have hallb : (u.map (bsppoint fuel d c k)).all Option.isSome = true := by
    rw [List.all_eq_true]
    intro x hx
    rw [List.mem_map] at hx
    obtain ⟨y, hy, rfl⟩ := hx
    obtain ⟨n, hn⟩ := List.mem_iff_get.mp hy
    have hj := hall n.1 n.2
    rwa [show u.getD n.1 0 = y from by rw [getD_eq_get_of_lt u n.1 n.2]; exact hn] at hj
  have hbp : bsppoint fuel d c k (u.getD col 0)
      = some (fun row2 => (List.range (d+1)).foldl
          (fun tmp2 i => tmp2 + (basisfun s (u.getD col 0) d k).getD i 0
            * c.entry row2 (s - d + i)) 0) := by
    rw [bsppoint, hspan]
    rfl
  refine ⟨mkMat c.rows u.length (fun row2 col2 =>
    (bsppoint fuel d c k (u.getD col2 0)).elim 0 (fun f => f row2)), ?_, ?_⟩
  · rw [bspeval, if_pos hcons, if_pos hallb]
  · show (if row < c.rows ∧ col < u.length then
        (bsppoint fuel d c k (u.getD col 0)).elim 0 (fun f => f row) else 0) = _
    rw [if_pos ⟨hrow, hcol⟩, hbp]
    have hsum := foldl_add_eq_sum
      (fun i => (basisfun s (u.getD col 0) d k).getD i 0 * c.entry row (s - d + i))
      (List.range (d+1)) 0
    simpa using hsum

/-- Control matrix of the C4 witness: one row, two control points 0, 1. -/
def cW : Mat := mkMat 1 2 (fun _ j => (j : ℚ))

/-- Knot vector of the C4 witness: clamped, degree 1. -/
def kW : List ℚ := [0, 0, 1, 1]

/-- Witness for C4 at a concrete input: degree 1, sample u = 1/2, whose
span is 1. -/
theorem bspeval_point_formula_witness :
    ∃ P, bspeval 2 1 cW kW [1/2] = Except.ok (some P) ∧
      P.entry 0 0 = ((List.range 2).map
        (fun i => (basisfun 1 (([1/2] : List ℚ).getD 0 0) 1 kW).getD i 0
          * cW.entry 0 (1 - 1 + i))).sum :=
  bspeval_point_formula 2 1 cW kW [1/2] (by norm_num [cW, mkMat, kW])
    (by
      intro j hj
      have hj0 : j = 0 := by
        simpa using hj
      subst hj0
      norm_num [bsppoint, findspanF, findspanLoop, knot, cW, mkMat, kW])
    0 (by norm_num) 1
    (by norm_num [findspanF, findspanLoop, knot, cW, mkMat, kW])
    0 (by norm_num [cW, mkMat])
